import Mathlib

/-!
Verification development for the JODIE training script (`jodie.py`).

The script maintains dynamic user ("actor") and item ("target") embeddings
over a chronologically ordered interaction stream.  Its core is the t-batch
scheduler: each training interaction `j` (with `userid = user_sequence_id[j]`,
`itemid = item_sequence_id[j]`) is assigned the batch id
`max(tbatchid_user[userid], tbatchid_item[itemid]) + 1`, and the accumulated
batches are flushed (processed by the training cycle) whenever the current
timestamp exceeds the open window's start time by more than
`tbatch_timespan = (timestamp_sequence[-1] - timestamp_sequence[0]) / 500`.
On the first epoch the flushed batches are cached, keyed by the closing
timestamp; later epochs replay the cache instead of re-running the scheduler.

This file embeds the scheduler state, the per-epoch training loop (first epoch
and replay epochs), and the small configuration / weighting computations, and
proves or refutes the frozen claims about them.  Machine floats are modelled
as rationals; the parallel Python sequences `user_sequence_id`,
`item_sequence_id`, `timestamp_sequence` are modelled as functions from the
interaction index.
-/

attribute [local semireducible] Rat.add Rat.sub Rat.mul Rat.inv

namespace Jodie

/-- Scheduler state: the per-entity last-batch-id maps `tbatchid_user` /
`tbatchid_item` (Python `defaultdict` with default `-1`), the per-batch lists
of interaction indices `current_tbatches_interactionids` (a `defaultdict` of
lists, so a batch id that was never appended to holds `[]`), and the list of
dictionary keys of the batch dict in first-touch order (`tbatch_keys`),
which is what Python's `len(lib.current_tbatches_user)` counts. -/
structure SchedState where
  tbatchid_user : Nat → Int
  tbatchid_item : Nat → Int
  current_tbatches_interactionids : Int → List Nat
  tbatch_keys : List Int

/-- Modelled from the spec: the body of `reinitialize_tbatches` lives in the
missing `library_models` module; spec §9 names the scheduler's process-wide
mutable state as the per-entity last-batch-id maps and the accumulating
per-batch lists, and reinitialisation restores this state fresh.  The `-1`
sentinel for the counters matches the in-source resets `tbatch_to_insert = -1`
(jodie.py lines 151 and 281): a fresh entity yields batch id
`max(-1, -1) + 1 = 0`, and the flush loop `for i in
range(len(current_tbatches_user))` visits ids from 0, which is only coherent
if the counters restart at `-1`. -/
def initSched : SchedState :=
  { tbatchid_user := fun _ => -1
    tbatchid_item := fun _ => -1
    current_tbatches_interactionids := fun _ => []
    tbatch_keys := [] }

/-- Batch id assigned to an interaction of user `u` and item `i`
(jodie.py line 169): `max(lib.tbatchid_user[userid], lib.tbatchid_item[itemid]) + 1`. -/
def tbatch_to_insert (s : SchedState) (u i : Nat) : Int :=
  max (s.tbatchid_user u) (s.tbatchid_item i) + 1

/-- Insertion of interaction `j` into its t-batch (jodie.py lines 169-179):
the assigned id is written back into both counters and `j` is appended to the
batch's interaction-id list.  `us`/`iseq` are `user_sequence_id` /
`item_sequence_id`. -/
def insertInteraction (us iseq : Nat → Nat) (s : SchedState) (j : Nat) : SchedState :=
  let t := tbatch_to_insert s (us j) (iseq j)
  { tbatchid_user := fun x => if x = us j then t else s.tbatchid_user x
    tbatchid_item := fun x => if x = iseq j then t else s.tbatchid_item x
    current_tbatches_interactionids := fun b =>
      if b = t then s.current_tbatches_interactionids b ++ [j]
      else s.current_tbatches_interactionids b
    tbatch_keys := if t ∈ s.tbatch_keys then s.tbatch_keys else s.tbatch_keys ++ [t] }

/-- Batches handed to the training cycle when a window is flushed
(jodie.py line 200): the loop `for i in trange(len(lib.current_tbatches_user))`
reads batches `0, 1, ..., len - 1` in increasing order. -/
def flushBatches (s : SchedState) : List (List Nat) :=
  (List.range s.tbatch_keys.length).map fun k : Nat =>
    s.current_tbatches_interactionids (k : Int)

/-- Interaction indices currently held by the scheduler, in flush order. -/
def schedIndices (s : SchedState) : List Nat :=
  (flushBatches s).flatten

/-- Sequence of batch ids visited by the flush loop, in visit order
(`for i in range(len(current_tbatches_user))`). -/
def flushOrder (s : SchedState) : List Int :=
  (List.range s.tbatch_keys.length).map fun k : Nat => (k : Int)

/-- Invariant of the scheduler state, relative to the stream maps `us`/`iseq`:
counters hold previously assigned ids, the key set of the batch dict is
exactly the contiguous range `0 .. len-1`, untouched batches are empty and
touched ones nonempty, no user or item repeats inside one batch, and every
member of batch `k` keeps its user's and item's counters at `≥ k`. -/
structure SchedInv (us iseq : Nat → Nat) (s : SchedState) : Prop where
  user_ge : ∀ u : Nat, -1 ≤ s.tbatchid_user u
  item_ge : ∀ i : Nat, -1 ≤ s.tbatchid_item i
  key_mem_user : ∀ u : Nat, 0 ≤ s.tbatchid_user u → s.tbatchid_user u ∈ s.tbatch_keys
  key_mem_item : ∀ i : Nat, 0 ≤ s.tbatchid_item i → s.tbatchid_item i ∈ s.tbatch_keys
  keys_range : ∀ k : Int, k ∈ s.tbatch_keys ↔ 0 ≤ k ∧ k < s.tbatch_keys.length
  nonkey_empty : ∀ k : Int, k ∉ s.tbatch_keys → s.current_tbatches_interactionids k = []
  key_nonempty : ∀ k : Int, k ∈ s.tbatch_keys → s.current_tbatches_interactionids k ≠ []
  users_nodup : ∀ k : Int, ((s.current_tbatches_interactionids k).map us).Nodup
  items_nodup : ∀ k : Int, ((s.current_tbatches_interactionids k).map iseq).Nodup
  user_le : ∀ k : Int, ∀ j ∈ s.current_tbatches_interactionids k, k ≤ s.tbatchid_user (us j)
  item_le : ∀ k : Int, ∀ j ∈ s.current_tbatches_interactionids k, k ≤ s.tbatchid_item (iseq j)

theorem schedInv_init (us iseq : Nat → Nat) : SchedInv us iseq initSched := by
  constructor <;> intros <;> simp_all [initSched]

/-- The freshly assigned batch id is nonnegative (counters are at least `-1`). -/
theorem tbatch_to_insert_nonneg {us iseq : Nat → Nat} {s : SchedState}
    (h : SchedInv us iseq s) (u i : Nat) : 0 ≤ tbatch_to_insert s u i := by
  have h1 := h.user_ge u
  have h2 := le_max_left (s.tbatchid_user u) (s.tbatchid_item i)
  unfold tbatch_to_insert
  omega

theorem tbatch_to_insert_lt_user (s : SchedState) (u i : Nat) :
    s.tbatchid_user u < tbatch_to_insert s u i := by
  have h2 := le_max_left (s.tbatchid_user u) (s.tbatchid_item i)
  unfold tbatch_to_insert
  omega

theorem tbatch_to_insert_lt_item (s : SchedState) (u i : Nat) :
    s.tbatchid_item i < tbatch_to_insert s u i := by
  have h2 := le_max_right (s.tbatchid_user u) (s.tbatchid_item i)
  unfold tbatch_to_insert
  omega

/-- A freshly assigned id that is not yet a dictionary key is exactly the next
contiguous id, the current number of keys. -/
theorem tbatch_to_insert_eq_length {us iseq : Nat → Nat} {s : SchedState}
    (h : SchedInv us iseq s) (u i : Nat)
    (hnot : tbatch_to_insert s u i ∉ s.tbatch_keys) :
    tbatch_to_insert s u i = s.tbatch_keys.length := by
  have h0 : 0 ≤ tbatch_to_insert s u i := tbatch_to_insert_nonneg h u i
  have hle : tbatch_to_insert s u i ≤ s.tbatch_keys.length := by
    rcases eq_or_lt_of_le h0 with h0' | h0'
    · omega
    · have hmax : 0 ≤ max (s.tbatchid_user u) (s.tbatchid_item i) := by
        unfold tbatch_to_insert at h0'
        omega
      rcases max_choice (s.tbatchid_user u) (s.tbatchid_item i) with hc | hc
      · have hmem := h.key_mem_user u (by omega)
        have := (h.keys_range _).mp hmem
        unfold tbatch_to_insert
        omega
      · have hmem := h.key_mem_item i (by omega)
        have := (h.keys_range _).mp hmem
        unfold tbatch_to_insert
        omega
  have hnotlt : ¬ (0 ≤ tbatch_to_insert s u i ∧
      tbatch_to_insert s u i < s.tbatch_keys.length) := by
    intro hc
    exact hnot ((h.keys_range _).mpr hc)
  omega

theorem schedInv_insert (us iseq : Nat → Nat) (s : SchedState) (j : Nat)
    (h : SchedInv us iseq s) : SchedInv us iseq (insertInteraction us iseq s j) := by
  have hnn : 0 ≤ tbatch_to_insert s (us j) (iseq j) :=
    tbatch_to_insert_nonneg h (us j) (iseq j)
  have hltu := tbatch_to_insert_lt_user s (us j) (iseq j)
  have hlti := tbatch_to_insert_lt_item s (us j) (iseq j)
  have hbu : ∀ u, (insertInteraction us iseq s j).tbatchid_user u =
      if u = us j then tbatch_to_insert s (us j) (iseq j) else s.tbatchid_user u :=
    fun _ => rfl
  have hbi : ∀ i, (insertInteraction us iseq s j).tbatchid_item i =
      if i = iseq j then tbatch_to_insert s (us j) (iseq j) else s.tbatchid_item i :=
    fun _ => rfl
  have hbb : ∀ k, (insertInteraction us iseq s j).current_tbatches_interactionids k =
      if k = tbatch_to_insert s (us j) (iseq j) then
        s.current_tbatches_interactionids k ++ [j]
      else s.current_tbatches_interactionids k :=
    fun _ => rfl
  have hbk : (insertInteraction us iseq s j).tbatch_keys =
      if tbatch_to_insert s (us j) (iseq j) ∈ s.tbatch_keys then s.tbatch_keys
      else s.tbatch_keys ++ [tbatch_to_insert s (us j) (iseq j)] := rfl
  constructor
  · -- user_ge
    intro u
    rw [hbu u]
    split_ifs
    · omega
    · exact h.user_ge u
  · -- item_ge
    intro i
    rw [hbi i]
    split_ifs
    · omega
    · exact h.item_ge i
  · -- key_mem_user
    intro u hge
    rw [hbu u] at hge ⊢
    rw [hbk]
    by_cases hu : u = us j
    · rw [if_pos hu] at hge ⊢
      by_cases hck : tbatch_to_insert s (us j) (iseq j) ∈ s.tbatch_keys
      · rw [if_pos hck]; exact hck
      · rw [if_neg hck]; simp
    · rw [if_neg hu] at hge ⊢
      have hmem := h.key_mem_user u hge
      by_cases hck : tbatch_to_insert s (us j) (iseq j) ∈ s.tbatch_keys
      · rw [if_pos hck]; exact hmem
      · rw [if_neg hck]; exact List.mem_append_left _ hmem
  · -- key_mem_item
    intro i hge
    rw [hbi i] at hge ⊢
    rw [hbk]
    by_cases hi : i = iseq j
    · rw [if_pos hi] at hge ⊢
      by_cases hck : tbatch_to_insert s (us j) (iseq j) ∈ s.tbatch_keys
      · rw [if_pos hck]; exact hck
      · rw [if_neg hck]; simp
    · rw [if_neg hi] at hge ⊢
      have hmem := h.key_mem_item i hge
      by_cases hck : tbatch_to_insert s (us j) (iseq j) ∈ s.tbatch_keys
      · rw [if_pos hck]; exact hmem
      · rw [if_neg hck]; exact List.mem_append_left _ hmem
  · -- keys_range
    intro k
    rw [hbk]
    by_cases hck : tbatch_to_insert s (us j) (iseq j) ∈ s.tbatch_keys
    · rw [if_pos hck]; exact h.keys_range k
    · rw [if_neg hck]
      have hteq := tbatch_to_insert_eq_length h (us j) (iseq j) hck
      have hkr := h.keys_range k
      simp only [List.mem_append, List.mem_singleton, List.length_append,
        List.length_singleton]
      rw [hkr]
      push_cast
      omega
  · -- nonkey_empty
    intro k hk
    rw [hbk] at hk
    rw [hbb k]
    by_cases hck : tbatch_to_insert s (us j) (iseq j) ∈ s.tbatch_keys
    · rw [if_pos hck] at hk
      have hkt : k ≠ tbatch_to_insert s (us j) (iseq j) := fun he => hk (he ▸ hck)
      rw [if_neg hkt]
      exact h.nonkey_empty k hk
    · rw [if_neg hck] at hk
      simp only [List.mem_append, List.mem_singleton, not_or] at hk
      rw [if_neg hk.2]
      exact h.nonkey_empty k hk.1
  · -- key_nonempty
    intro k hk
    rw [hbk] at hk
    rw [hbb k]
    by_cases hkt : k = tbatch_to_insert s (us j) (iseq j)
    · rw [if_pos hkt]; simp
    · rw [if_neg hkt]
      apply h.key_nonempty k
      by_cases hck : tbatch_to_insert s (us j) (iseq j) ∈ s.tbatch_keys
      · rwa [if_pos hck] at hk
      · rw [if_neg hck] at hk
        rcases List.mem_append.mp hk with hm | hm
        · exact hm
        · rw [List.mem_singleton] at hm; exact absurd hm hkt
  · -- users_nodup
    intro k
    rw [hbb k]
    by_cases hkt : k = tbatch_to_insert s (us j) (iseq j)
    · rw [if_pos hkt, List.map_append]
      rw [List.nodup_append]
      refine ⟨h.users_nodup k, by simp, ?_⟩
      intro a ha hb
      simp only [List.map_cons, List.map_nil, List.mem_singleton] at hb
      subst hb
      simp only [List.mem_map] at ha
      obtain ⟨j', hj', he⟩ := ha
      have hle := h.user_le k j' hj'
      rw [he] at hle
      rw [hkt] at hle
      omega
    · rw [if_neg hkt]
      exact h.users_nodup k
  · -- items_nodup
    intro k
    rw [hbb k]
    by_cases hkt : k = tbatch_to_insert s (us j) (iseq j)
    · rw [if_pos hkt, List.map_append]
      rw [List.nodup_append]
      refine ⟨h.items_nodup k, by simp, ?_⟩
      intro a ha hb
      simp only [List.map_cons, List.map_nil, List.mem_singleton] at hb
      subst hb
      simp only [List.mem_map] at ha
      obtain ⟨j', hj', he⟩ := ha
      have hle := h.item_le k j' hj'
      rw [he] at hle
      rw [hkt] at hle
      omega
    · rw [if_neg hkt]
      exact h.items_nodup k
  · -- user_le
    intro k j' hj'
    rw [hbb k] at hj'
    rw [hbu (us j')]
    by_cases hkt : k = tbatch_to_insert s (us j) (iseq j)
    · rw [if_pos hkt] at hj'
      rcases List.mem_append.mp hj' with hm | hm
      · have hle := h.user_le k j' hm
        split_ifs with hu
        · omega
        · exact hle
      · rw [List.mem_singleton] at hm
        subst hm
        split_ifs with hu
        · omega
        · exact absurd rfl hu
    · rw [if_neg hkt] at hj'
      have hle := h.user_le k j' hj'
      split_ifs with hu
      · rw [hu] at hle; omega
      · exact hle
  · -- item_le
    intro k j' hj'
    rw [hbb k] at hj'
    rw [hbi (iseq j')]
    by_cases hkt : k = tbatch_to_insert s (us j) (iseq j)
    · rw [if_pos hkt] at hj'
      rcases List.mem_append.mp hj' with hm | hm
      · have hle := h.item_le k j' hm
        split_ifs with hi
        · omega
        · exact hle
      · rw [List.mem_singleton] at hm
        subst hm
        split_ifs with hi
        · omega
        · exact absurd rfl hi
    · rw [if_neg hkt] at hj'
      have hle := h.item_le k j' hj'
      split_ifs with hi
      · rw [hi] at hle; omega
      · exact hle

/-- Folding a list of interaction indices into the scheduler, in order
(the accumulation phase of the training loop, jodie.py lines 159-179). -/
def schedApply (us iseq : Nat → Nat) (s : SchedState) (L : List Nat) : SchedState :=
  L.foldl (insertInteraction us iseq) s

/-- Scheduler state obtained by inserting the consecutive interaction indices
`a, a+1, ..., a+len-1`, which is what one flush window accumulates. -/
def schedApplyRange (us iseq : Nat → Nat) (s : SchedState) (a len : Nat) : SchedState :=
  schedApply us iseq s (List.range' a len)

/-- Flush-window time span (jodie.py lines 82-83):
`tbatch_timespan = (timestamp_sequence[-1] - timestamp_sequence[0]) / 500`,
where `n` is the total number of interactions of the stream. -/
def tbatchTimespan (ts : Nat → ℚ) (n : Nat) : ℚ :=
  (ts (n - 1) - ts 0) / 500

/-- First-epoch training loop over interactions `j, j+1, ..., j+r-1`
(jodie.py lines 155-281).  Per interaction: insert it into its t-batch
(lines 159-179), initialise `tbatch_start_time` on first use (lines 181-183),
and if the timestamp exceeds the window start by more than the span
(line 186), flush: the accumulated batches are processed and cached under the
closing timestamp, the scheduler is reinitialised (`reinitialize_tbatches()`,
line 280) and the start time becomes the closing timestamp (line 187).
Returns the flush events (closing timestamp, batches in processed order) and
the scheduler state left over at the end of the loop; note that the loop has
no final flush, so the leftover state is simply dropped by the script. -/
def runEpoch (span : ℚ) (us iseq : Nat → Nat) (ts : Nat → ℚ) :
    SchedState → Option ℚ → Nat → Nat → List (ℚ × List (List Nat)) × SchedState
  | sched, _, _, 0 => ([], sched)
  | sched, start, j, r + 1 =>
    let s' := insertInteraction us iseq sched j
    let st := start.getD (ts j)
    if ts j - st > span then
      let rest := runEpoch span us iseq ts initSched (some (ts j)) (j + 1) r
      ((ts j, flushBatches s') :: rest.1, rest.2)
    else
      runEpoch span us iseq ts s' (some st) (j + 1) r

/-- Replay (non-first) epoch (jodie.py lines 159, 186, 190-197): the insertion
block is skipped, the window-start / span logic is identical, and at each
flush boundary the batches are taken from the cache under the closing
timestamp instead of from the scheduler.  Returns the flush events consumed. -/
def runReplay (span : ℚ) (ts : Nat → ℚ) (cache : ℚ → List (List Nat)) :
    Option ℚ → Nat → Nat → List (ℚ × List (List Nat))
  | _, _, 0 => []
  | start, j, r + 1 =>
    let st := start.getD (ts j)
    if ts j - st > span then
      (ts j, cache (ts j)) :: runReplay span ts cache (some (ts j)) (j + 1) r
    else
      runReplay span ts cache (some st) (j + 1) r

/-- Cache built during the first epoch (jodie.py lines 271-278): a dictionary
keyed by the closing timestamp; a repeated key would overwrite (Python dict
assignment), so reading returns the last write.  A key never written is
modelled as the empty batch list (Python would raise `KeyError`). -/
def cacheOf (fs : List (ℚ × List (List Nat))) : ℚ → List (List Nat) :=
  fun t => ((fs.filter (fun p => p.1 = t)).getLast?.map Prod.snd).getD []

/-- Indices at which the epoch's flush condition fires (the control skeleton
of the loop: the `timestamp - tbatch_start_time > tbatch_timespan` test of
line 186, which depends only on the timestamps). -/
def windowTriggers (span : ℚ) (ts : Nat → ℚ) :
    Option ℚ → Nat → Nat → List Nat
  | _, _, 0 => []
  | start, j, r + 1 =>
    let st := start.getD (ts j)
    if ts j - st > span then
      j :: windowTriggers span ts (some (ts j)) (j + 1) r
    else
      windowTriggers span ts (some st) (j + 1) r

/-- Flush events reconstructed from the trigger indices: the window closed at
trigger `g` accumulated exactly the consecutive interactions from the window
start `a` up to and including `g`, starting from a reinitialised scheduler. -/
def flushesOfTriggers (us iseq : Nat → Nat) (ts : Nat → ℚ) :
    SchedState → Nat → List Nat → List (ℚ × List (List Nat))
  | _, _, [] => []
  | s, a, g :: rest =>
    (ts g, flushBatches (schedApplyRange us iseq s a (g + 1 - a))) ::
      flushesOfTriggers us iseq ts initSched (g + 1) rest

/-- Scheduler state left over after the loop ends at index `e`, reconstructed
from the trigger indices: the trailing interactions after the last trigger. -/
def finalSchedOf (us iseq : Nat → Nat) (e : Nat) :
    SchedState → Nat → List Nat → SchedState
  | s, a, [] => schedApplyRange us iseq s a (e - a)
  | _, _, g :: rest => finalSchedOf us iseq e initSched (g + 1) rest

/-- Start index of the window left open after the given triggers. -/
def lastEnd : Nat → List Nat → Nat
  | a, [] => a
  | _, g :: rest => lastEnd (g + 1) rest

/-- All interaction indices contained in a list of flush events, in processed
order. -/
def flushIndices (fs : List (ℚ × List (List Nat))) : List Nat :=
  (fs.map fun p => p.2.flatten).flatten

/-- Trace of t-batch assignments (jodie.py line 169): for each inserted
interaction, the value of `tbatch_to_insert` chosen for it, in insertion
order. -/
def schedAssignSeq (us iseq : Nat → Nat) : SchedState → List Nat → List (Nat × Int)
  | _, [] => []
  | s, j :: rest =>
    (j, tbatch_to_insert s (us j) (iseq j)) ::
      schedAssignSeq us iseq (insertInteraction us iseq s j) rest

/-- Batch ids assigned to the interactions of user `u`, in interaction order. -/
def userBatchIdSeq (us iseq : Nat → Nat) (s : SchedState) (L : List Nat) (u : Nat) :
    List Int :=
  ((schedAssignSeq us iseq s L).filter fun p => us p.1 = u).map Prod.snd

/-- Batch ids assigned to the interactions of item `i`, in interaction order. -/
def itemBatchIdSeq (us iseq : Nat → Nat) (s : SchedState) (L : List Nat) (i : Nat) :
    List Int :=
  ((schedAssignSeq us iseq s L).filter fun p => iseq p.1 = i).map Prod.snd

/-- Trace of `tbatch_to_insert` values over a whole first epoch, including the
scheduler reinitialisation at each flush boundary (mirrors `runEpoch`). -/
def epochAssignLog (span : ℚ) (us iseq : Nat → Nat) (ts : Nat → ℚ) :
    SchedState → Option ℚ → Nat → Nat → List (Nat × Int)
  | _, _, _, 0 => []
  | sched, start, j, r + 1 =>
    let t := tbatch_to_insert sched (us j) (iseq j)
    let s' := insertInteraction us iseq sched j
    let st := start.getD (ts j)
    if ts j - st > span then
      (j, t) :: epochAssignLog span us iseq ts initSched (some (ts j)) (j + 1) r
    else
      (j, t) :: epochAssignLog span us iseq ts s' (some st) (j + 1) r

/-- Epoch-wide sequence of batch ids assigned to interactions of user `u`. -/
def epochUserBatchIds (span : ℚ) (us iseq : Nat → Nat) (ts : Nat → ℚ)
    (tEnd : Nat) (u : Nat) : List Int :=
  ((epochAssignLog span us iseq ts initSched none 0 tEnd).filter
    fun p => us p.1 = u).map Prod.snd

/-- Sortedness invariant of the interaction stream (spec §3: `timestamp`
is monotonically non-decreasing), bounded to the stream length `n`. -/
abbrev TimestampsSorted (ts : Nat → ℚ) (n : Nat) : Prop :=
  ∀ k, k < n → ∀ i, i ≤ k → ts i ≤ ts k

/-- Positive-class weight of the state-change loss (jodie.py line 64):
`true_labels_ratio = len(y_true)/(1.0+sum(y_true))`; the `+1` guards the
denominator when there are no positive labels. -/
def true_labels_ratio (y_true : List Nat) : ℚ :=
  (y_true.length : ℚ) / (1 + (y_true.sum : ℚ))

/-- Modelled from the spec: the weighting the spec's words describe, the
dataset-wide ratio of the number of labeled interactions to the number of
positively labeled interactions (labels are 0/1, so their sum counts the
positives); declared only to compare with the source's computation. -/
def claimedLabelsRatio (y_true : List Nat) : ℚ :=
  (y_true.length : ℚ) / (y_true.sum : ℚ)

/-- Startup sequencing (jodie.py lines 40-41 and 51-53): the train-proportion
check exits fatally before `load_network` is invoked; `loadData` stands for
the data-loading collaborator and is only forced in the accepting branch. -/
def runStartup {α : Type} (train_proportion : ℚ) (loadData : Unit → α) :
    Except String α :=
  if train_proportion > 0.8 then
    Except.error "Training sequence proportion cannot be greater than 0.8."
  else
    Except.ok (loadData ())

/-- Number of item rows (jodie.py line 60):
`num_items = len(item2id) + 1`, one extra row for "none-of-these". -/
def num_items (numRealItems : Nat) : Nat := numRealItems + 1

/-- Dynamic item embedding table (jodie.py line 100): the initial item
embedding repeated `num_items` times. -/
def item_embeddings (numRealItems : Nat) (row : List ℚ) : List (List ℚ) :=
  List.replicate (num_items numRealItems) row

/-- Static one-hot item table (jodie.py line 102):
`item_embedding_static = torch.eye(num_items)`. -/
def item_embedding_static (numRealItems : Nat) : List (List ℚ) :=
  (List.range (num_items numRealItems)).map fun r =>
    (List.range (num_items numRealItems)).map fun c => if c = r then (1 : ℚ) else 0

/-- Modelled from the spec: a previous-target id of an interaction (spec §3)
is either a real target id (an `item2id` value, `< numRealItems`) or the
sentinel "none" id, which the allocation reserves the extra row for; the
sequence itself is produced by the missing `library_data.load_network`. -/
def validPreviousItemId (numRealItems pid : Nat) : Prop :=
  pid < numRealItems ∨ pid = numRealItems

/-! Concrete test streams used by counterexamples and witnesses.  A stream is
given by its parallel sequences; indices beyond the explicit prefix take the
`getD` default and are never touched by the runs below. -/

/-- Timestamps `0, 10, 11, 11, 500` (5 interactions, training prefix 4):
the span is `(500 - 0)/500 = 1`, the only flush triggers at `j = 1`, and
interactions 2 and 3 stay in the never-flushed trailing window. -/
def exTsA : Nat → ℚ := fun j => ([0, 10, 11, 11, 500] : List ℚ).getD j 0

/-- Users `0, 1, 2, 3` for the stream `exTsA` (all distinct). -/
def exUsA : Nat → Nat := fun j => ([0, 1, 2, 3, 4] : List Nat).getD j 0

/-- Items `0, 1, 2, 3` for the stream `exTsA` (all distinct). -/
def exIsA : Nat → Nat := fun j => ([0, 1, 2, 3, 4] : List Nat).getD j 0

/-- Timestamps `0, 0, 10, 20, 500` (span 1): flushes trigger at `j = 2` and
`j = 3`, so the epoch has two flushed windows. -/
def exTsB : Nat → ℚ := fun j => ([0, 0, 10, 20, 500] : List ℚ).getD j 0

/-- A single user `0` interacting in every interaction of stream `exTsB`. -/
def exUsB : Nat → Nat := fun _ => 0

/-- Items `0, 1, 0, 1` for the stream `exTsB`. -/
def exIsB : Nat → Nat := fun j => ([0, 1, 0, 1, 0] : List Nat).getD j 0

/-- Timestamps `0, 10, 11, 30, 500` (span 1): flushes trigger at `j = 1` and
at `j = 3`; the first flushed window holds interactions 0 and 1, whose
timestamps are 10 apart — ten times the span. -/
def exTsC : Nat → ℚ := fun j => ([0, 10, 11, 30, 500] : List ℚ).getD j 0

/-- Timestamps `0, 0, 0, 0, 0, 100` (6 interactions, span 1/5): one flush,
triggered by the last interaction, containing the whole stream. -/
def exTsD : Nat → ℚ := fun j => ([0, 0, 0, 0, 0, 100] : List ℚ).getD j 0

/-- Users `A, B, A, C, A, D = 0, 1, 0, 2, 0, 3` (spec §8 scenario extended by
one flush-triggering interaction). -/
def exUsD : Nat → Nat := fun j => ([0, 1, 0, 2, 0, 3] : List Nat).getD j 0

/-- Items `X, Y, Y, X, Z, W = 0, 1, 1, 0, 2, 3` for the stream `exTsD`. -/
def exIsD : Nat → Nat := fun j => ([0, 1, 1, 0, 2, 3] : List Nat).getD j 0

/-- Within one accumulation run (one flush window), the batch ids assigned to
a fixed user form a chain strictly above the user's current counter. -/
theorem userBatchIdSeq_chain (us iseq : Nat → Nat) :
    ∀ (L : List Nat) (s : SchedState) (u : Nat),
      List.Chain (· < ·) (s.tbatchid_user u) (userBatchIdSeq us iseq s L u) := by
  intro L
  induction L with
  | nil =>
    intro s u
    simp [userBatchIdSeq, schedAssignSeq]
  | cons j rest ih =>
    intro s u
    by_cases hu : us j = u
    · subst hu
      have hseq : userBatchIdSeq us iseq s (j :: rest) (us j) =
          tbatch_to_insert s (us j) (iseq j) ::
            userBatchIdSeq us iseq (insertInteraction us iseq s j) rest (us j) := by
        simp [userBatchIdSeq, schedAssignSeq, List.filter_cons]
      rw [hseq]
      refine List.Chain.cons (tbatch_to_insert_lt_user s (us j) (iseq j)) ?_
      have hih := ih (insertInteraction us iseq s j) (us j)
      have huc : (insertInteraction us iseq s j).tbatchid_user (us j) =
          tbatch_to_insert s (us j) (iseq j) := by
        show (if us j = us j then tbatch_to_insert s (us j) (iseq j)
          else s.tbatchid_user (us j)) = _
        rw [if_pos rfl]
      rwa [huc] at hih
    · have hseq : userBatchIdSeq us iseq s (j :: rest) u =
          userBatchIdSeq us iseq (insertInteraction us iseq s j) rest u := by
        simp [userBatchIdSeq, schedAssignSeq, List.filter_cons, hu]
      rw [hseq]
      have hih := ih (insertInteraction us iseq s j) u
      have huc : (insertInteraction us iseq s j).tbatchid_user u =
          s.tbatchid_user u := by
        show (if u = us j then tbatch_to_insert s (us j) (iseq j)
          else s.tbatchid_user u) = _
        rw [if_neg (fun he => hu he.symm)]
      rwa [huc] at hih

/-- Item version of `userBatchIdSeq_chain`. -/
theorem itemBatchIdSeq_chain (us iseq : Nat → Nat) :
    ∀ (L : List Nat) (s : SchedState) (i : Nat),
      List.Chain (· < ·) (s.tbatchid_item i) (itemBatchIdSeq us iseq s L i) := by
  intro L
  induction L with
  | nil =>
    intro s i
    simp [itemBatchIdSeq, schedAssignSeq]
  | cons j rest ih =>
    intro s i
    by_cases hi : iseq j = i
    · subst hi
      have hseq : itemBatchIdSeq us iseq s (j :: rest) (iseq j) =
          tbatch_to_insert s (us j) (iseq j) ::
            itemBatchIdSeq us iseq (insertInteraction us iseq s j) rest (iseq j) := by
        simp [itemBatchIdSeq, schedAssignSeq, List.filter_cons]
      rw [hseq]
      refine List.Chain.cons (tbatch_to_insert_lt_item s (us j) (iseq j)) ?_
      have hih := ih (insertInteraction us iseq s j) (iseq j)
      have hic : (insertInteraction us iseq s j).tbatchid_item (iseq j) =
          tbatch_to_insert s (us j) (iseq j) := by
        show (if iseq j = iseq j then tbatch_to_insert s (us j) (iseq j)
          else s.tbatchid_item (iseq j)) = _
        rw [if_pos rfl]
      rwa [hic] at hih
    · have hseq : itemBatchIdSeq us iseq s (j :: rest) i =
          itemBatchIdSeq us iseq (insertInteraction us iseq s j) rest i := by
        simp [itemBatchIdSeq, schedAssignSeq, List.filter_cons, hi]
      rw [hseq]
      have hih := ih (insertInteraction us iseq s j) i
      have hic : (insertInteraction us iseq s j).tbatchid_item i =
          s.tbatchid_item i := by
        show (if i = iseq j then tbatch_to_insert s (us j) (iseq j)
          else s.tbatchid_item i) = _
        rw [if_neg (fun he => hi he.symm)]
      rwa [hic] at hih

theorem chain_imp_chain' {α : Type} {R : α → α → Prop} {a : α} {l : List α}
    (h : List.Chain R a l) : List.Chain' R l := by
  cases l with
  | nil => trivial
  | cons b l' => exact (List.chain_cons.mp h).2

/-- C2 (amended): starting from a reinitialised scheduler — which is how every
flush window starts, since `reinitialize_tbatches()` is called at line 280
after each flush — the sequence of batch ids assigned to any fixed actor, and
to any fixed target, over any run of insertions is strictly increasing.  The
increase holds within one flush window only: the reset at the flush boundary
restarts ids at 0, so the epoch-wide sequence need not increase (see the
counterexample). -/
theorem c2_entity_batch_ids_increase_within_window
    (us iseq : Nat → Nat) (L : List Nat) (u i : Nat) :
    List.Chain' (· < ·) (userBatchIdSeq us iseq initSched L u) ∧
    List.Chain' (· < ·) (itemBatchIdSeq us iseq initSched L i) :=
  ⟨chain_imp_chain' (userBatchIdSeq_chain us iseq L initSched u),
   chain_imp_chain' (itemBatchIdSeq_chain us iseq L initSched i)⟩

/-- C2 counterexample: on the stream with timestamps `0, 0, 10, 20` (span 1),
one user `0`, and items `0, 1, 0, 1`, the epoch-wide sequence of batch ids of
user `0` is `0, 1, 2, 0` — the scheduler counters are reset by
`reinitialize_tbatches()` at the flush boundary after interaction 2, so the
id assigned at interaction 3 drops back to 0 and the sequence is not strictly
increasing, refuting the claim that ids keep growing across windows. -/
theorem c2_counterexample :
    epochUserBatchIds (tbatchTimespan exTsB 5) exUsB exIsB exTsB 4 0
        = [0, 1, 2, 0] ∧
    ¬ List.Chain' (· < ·)
        (epochUserBatchIds (tbatchTimespan exTsB 5) exUsB exIsB exTsB 4 0) := by
  have h1 : epochUserBatchIds (tbatchTimespan exTsB 5) exUsB exIsB exTsB 4 0
      = [0, 1, 2, 0] := by decide
  refine ⟨h1, ?_⟩
  rw [h1]
  norm_num [List.chain'_cons]

/-- C7 (amended): the positive-class weight computed by the source is
`len(y_true) / (1 + sum(y_true))`: its denominator is always positive (so the
weight is a well-defined, finite rational for every label sequence, including
one with no positive labels), and with zero positive labels the weight equals
the number of labeled interactions exactly. -/
theorem c7_guarded_weight_finite (y_true : List Nat) :
    0 < 1 + (y_true.sum : ℚ) ∧
    (y_true.sum = 0 → true_labels_ratio y_true = (y_true.length : ℚ)) := by
  constructor
  · positivity
  · intro h
    unfold true_labels_ratio
    rw [h]
    norm_num

/-- C7 counterexample: for the labels `[1, 0]` the source computes
`2 / (1 + 1) = 1`, while the dataset-wide ratio of labeled to positively
labeled interactions is `2 / 1 = 2`; the two differ, so the weight does not
equal the claimed ratio. -/
theorem c7_counterexample :
    true_labels_ratio [1, 0] = 1 ∧ claimedLabelsRatio [1, 0] = 2 ∧
    true_labels_ratio [1, 0] ≠ claimedLabelsRatio [1, 0] := by
  refine ⟨by decide, by decide, by decide⟩

/-- C7 witness: the guarded weight at the all-negative label list `[0, 0]`. -/
theorem c7_witness :
    0 < 1 + ((([0, 0] : List Nat)).sum : ℚ) ∧
    true_labels_ratio [0, 0] = ((([0, 0] : List Nat)).length : ℚ) :=
  ⟨(c7_guarded_weight_finite [0, 0]).1, (c7_guarded_weight_finite [0, 0]).2 rfl⟩

/-- C9: a configuration with `train_proportion > 0.8` is rejected fatally
before any data is loaded — the result is the same error for every data
loader, so the loader is never consulted — and `train_proportion = 0.8`
is accepted (the check is strict). -/
theorem c9_train_proportion_check {α : Type} (p : ℚ) (f g : Unit → α) :
    ((0.8 : ℚ) < p →
      runStartup p f =
          Except.error "Training sequence proportion cannot be greater than 0.8." ∧
        runStartup p f = runStartup p g) ∧
    runStartup (0.8 : ℚ) f = Except.ok (f ()) := by
  constructor
  · intro hp
    constructor
    · unfold runStartup
      rw [if_pos hp]
    · unfold runStartup
      rw [if_pos hp, if_pos hp]
  · unfold runStartup
    rw [if_neg (lt_irrefl (0.8 : ℚ))]

/-- C9 witness: `train_proportion = 0.85` is rejected identically for two
different loaders, and `0.8` is accepted. -/
theorem c9_witness :
    (runStartup (0.85 : ℚ) (fun _ => (0 : Nat)) =
        Except.error "Training sequence proportion cannot be greater than 0.8." ∧
      runStartup (0.85 : ℚ) (fun _ => (0 : Nat)) =
        runStartup (0.85 : ℚ) (fun _ => (1 : Nat))) ∧
    runStartup (0.8 : ℚ) (fun _ => (0 : Nat)) = Except.ok 0 :=
  ⟨(c9_train_proportion_check (0.85 : ℚ) (fun _ => (0 : Nat))
      (fun _ => (1 : Nat))).1 (by norm_num),
   (c9_train_proportion_check (0.8 : ℚ) (fun _ => (0 : Nat))
      (fun _ => (1 : Nat))).2⟩

/-- C10: the item tables are allocated with `num_items = len(item2id) + 1`
rows, so every valid previous-target id — a real id or the "none-of-these"
sentinel — indexes strictly inside both the dynamic item embedding table and
the static one-hot table; the lookups at jodie.py lines 223-230 never go out
of bounds. -/
theorem c10_sentinel_indexing_in_bounds
    (numRealItems pid : Nat) (row : List ℚ)
    (h : validPreviousItemId numRealItems pid) :
    pid < (item_embeddings numRealItems row).length ∧
    pid < (item_embedding_static numRealItems).length := by
  have hlt : pid < num_items numRealItems := by
    unfold validPreviousItemId at h
    unfold num_items
    omega
  constructor
  · unfold item_embeddings
    rw [List.length_replicate]
    exact hlt
  · unfold item_embedding_static
    rw [List.length_map, List.length_range]
    exact hlt

/-- C10 witness: with 3 real item ids, the sentinel id 3 indexes inside both
4-row tables. -/
theorem c10_witness :
    validPreviousItemId 3 3 ∧
    3 < (item_embeddings 3 []).length ∧ 3 < (item_embedding_static 3).length :=
  ⟨Or.inr rfl, c10_sentinel_indexing_in_bounds 3 3 [] (Or.inr rfl)⟩

/-- Every batch exposed by a flush has duplicate-free users and items, given
the scheduler invariant. -/
theorem flushBatches_nodup {us iseq : Nat → Nat} {s : SchedState}
    (h : SchedInv us iseq s) :
    ∀ b ∈ flushBatches s, (b.map us).Nodup ∧ (b.map iseq).Nodup := by
  intro b hb
  unfold flushBatches at hb
  simp only [List.mem_map, List.mem_range] at hb
  obtain ⟨k, _, rfl⟩ := hb
  exact ⟨h.users_nodup _, h.items_nodup _⟩

/-- The batch-distinctness property holds for every flush event produced by
the first-epoch loop, from any invariant-satisfying scheduler state. -/
theorem runEpoch_flushes_nodup (span : ℚ) (us iseq : Nat → Nat) (ts : Nat → ℚ) :
    ∀ (r j : Nat) (sched : SchedState) (start : Option ℚ),
      SchedInv us iseq sched →
      ∀ p ∈ (runEpoch span us iseq ts sched start j r).1, ∀ b ∈ p.2,
        (b.map us).Nodup ∧ (b.map iseq).Nodup := by
  intro r
  induction r with
  | zero =>
    intro j sched start _ p hp
    simp [runEpoch] at hp
  | succ r ih =>
    intro j sched start h p hp b hb
    rw [runEpoch] at hp
    simp only at hp
    split at hp
    · rcases List.mem_cons.mp hp with hph | hpt
      · subst hph
        exact flushBatches_nodup (schedInv_insert us iseq sched j h) b hb
      · exact ih (j + 1) initSched (some (ts j)) (schedInv_init us iseq) p hpt b hb
    · exact ih (j + 1) (insertInteraction us iseq sched j)
        (some (start.getD (ts j))) (schedInv_insert us iseq sched j h) p hp b hb

/-- C3: in every flush window of a first epoch and for every batch id within
it, the interactions assigned that batch (as handed to the training cycle by
`flushBatches`) have pairwise-distinct actor ids and pairwise-distinct target
ids: an entity occurring again is assigned a strictly greater id, so it can
never land in the same batch twice. -/
theorem c3_no_duplicate_actor_or_target_in_batch
    (span : ℚ) (us iseq : Nat → Nat) (ts : Nat → ℚ) (tEnd : Nat)
    (p : ℚ × List (List Nat)) (b : List Nat)
    (hp : p ∈ (runEpoch span us iseq ts initSched none 0 tEnd).1)
    (hb : b ∈ p.2) :
    (b.map us).Nodup ∧ (b.map iseq).Nodup :=
  runEpoch_flushes_nodup span us iseq ts tEnd 0 initSched none
    (schedInv_init us iseq) p hp b hb

/-- C3 witness: on the spec §8 scenario stream (extended by one
flush-triggering interaction) the single flushed window has batches
`[[0,1,5],[2,3],[4]]`; batch 0's users `0, 1, 3` and items `0, 1, 3` are
duplicate-free. -/
theorem c3_witness :
    ((100 : ℚ), [[0, 1, 5], [2, 3], [4]]) ∈
        (runEpoch (tbatchTimespan exTsD 6) exUsD exIsD exTsD initSched none 0 6).1 ∧
      [0, 1, 5] ∈ ((100 : ℚ), ([[0, 1, 5], [2, 3], [4]] : List (List Nat))).2 ∧
      (([0, 1, 5] : List Nat).map exUsD).Nodup ∧
      (([0, 1, 5] : List Nat).map exIsD).Nodup := by
  refine ⟨by decide, by decide, ?_⟩
  exact c3_no_duplicate_actor_or_target_in_batch (tbatchTimespan exTsD 6)
    exUsD exIsD exTsD 6 ((100 : ℚ), [[0, 1, 5], [2, 3], [4]]) [0, 1, 5]
    (by decide) (by decide)

/-- A replay epoch consumes, at each flush boundary, the cache entry under the
boundary's closing timestamp: the boundaries themselves depend only on the
timestamps, so the replay trace is the first-epoch flush trace with each
event's batches replaced by the cache lookup at its closing timestamp. -/
theorem runReplay_eq_map (span : ℚ) (us iseq : Nat → Nat) (ts : Nat → ℚ)
    (cache : ℚ → List (List Nat)) :
    ∀ (r j : Nat) (sched : SchedState) (start : Option ℚ),
      runReplay span ts cache start j r
        = ((runEpoch span us iseq ts sched start j r).1).map
            fun p => (p.1, cache p.1) := by
  intro r
  induction r with
  | zero =>
    intro j sched start
    simp [runReplay, runEpoch]
  | succ r ih =>
    intro j sched start
    rw [runReplay, runEpoch]
    by_cases hc : ts j - start.getD (ts j) > span
    · simp only [hc, if_true, List.map_cons]
      exact congrArg (List.cons _) (ih (j + 1) initSched (some (ts j)))
    · simp only [hc, if_false]
      exact ih (j + 1) (insertInteraction us iseq sched j) (some (start.getD (ts j)))

/-- Closing timestamps of the flush events strictly increase (each flush
fires strictly more than the non-negative span after the previous closing
timestamp). -/
theorem runEpoch_flushTimes_chain (span : ℚ) (us iseq : Nat → Nat) (ts : Nat → ℚ)
    (hspan : 0 ≤ span) :
    ∀ (r j : Nat) (sched : SchedState) (s₀ : ℚ),
      List.Chain (· < ·) s₀
        (((runEpoch span us iseq ts sched (some s₀) j r).1).map Prod.fst) := by
  intro r
  induction r with
  | zero =>
    intro j sched s₀
    simp only [runEpoch, List.map_nil]
    exact List.Chain.nil
  | succ r ih =>
    intro j sched s₀
    rw [runEpoch]
    simp only [Option.getD_some]
    by_cases hc : ts j - s₀ > span
    · simp only [hc, if_true, List.map_cons]
      refine List.Chain.cons ?_ (ih (j + 1) initSched (ts j))
      linarith
    · simp only [hc, if_false]
      exact ih (j + 1) (insertInteraction us iseq sched j) s₀

/-- Version of `runEpoch_flushTimes_chain` for the epoch start
(`tbatch_start_time = None`). -/
theorem runEpoch_flushTimes_chain_none (span : ℚ) (us iseq : Nat → Nat)
    (ts : Nat → ℚ) (hspan : 0 ≤ span) (r : Nat) (sched : SchedState) :
    List.Chain' (· < ·)
      (((runEpoch span us iseq ts sched none 0 r).1).map Prod.fst) := by
  cases r with
  | zero =>
    simp only [runEpoch, List.map_nil]
    trivial
  | succ r =>
    rw [runEpoch]
    simp only [Option.getD_none]
    have hc : ¬ (ts 0 - ts 0 > span) := by linarith
    simp only [hc, if_false]
    exact chain_imp_chain'
      (runEpoch_flushTimes_chain span us iseq ts hspan r 1
        (insertInteraction us iseq sched 0) (ts 0))

/-- The configured span is non-negative on a sorted stream. -/
theorem tbatchTimespan_nonneg (ts : Nat → ℚ) (n : Nat)
    (h : TimestampsSorted ts n) : 0 ≤ tbatchTimespan ts n := by
  unfold tbatchTimespan
  rcases n with _ | m
  · simp
  · have h1 := h m (Nat.lt_succ_self m) 0 (Nat.zero_le m)
    simp only [Nat.add_sub_cancel]
    exact div_nonneg (by linarith) (by norm_num)

theorem filter_fst_eq_nil {fs : List (ℚ × List (List Nat))} {c : ℚ}
    (h : ∀ x ∈ fs, x.1 ≠ c) : fs.filter (fun p => p.1 = c) = [] := by
  induction fs with
  | nil => rfl
  | cons q fs ih =>
    rw [List.filter_cons]
    have hq : ¬ (q.1 = c) := h q (List.mem_cons_self q fs)
    simp only [hq, decide_False, Bool.false_eq_true, if_false]
    exact ih fun x hx => h x (List.mem_cons_of_mem q hx)

/-- Looking up the cache at the key of one of its entries returns that entry's
batches, provided the keys are pairwise distinct. -/
theorem cacheOf_mem {fs : List (ℚ × List (List Nat))}
    (hnd : (fs.map Prod.fst).Pairwise (· ≠ ·)) :
    ∀ p ∈ fs, cacheOf fs p.1 = p.2 := by
  induction fs with
  | nil =>
    intro p hp
    simp at hp
  | cons q fs ih =>
    rw [List.map_cons] at hnd
    have hparts := List.pairwise_cons.mp hnd
    intro p hp
    rcases List.mem_cons.mp hp with rfl | hpt
    · have hrest : fs.filter (fun r => r.1 = p.1) = [] :=
        filter_fst_eq_nil fun x hx he =>
          hparts.1 x.1 (List.mem_map_of_mem Prod.fst hx) he.symm
      unfold cacheOf
      rw [List.filter_cons]
      simp [hrest]
    · have hne : q.1 ≠ p.1 := hparts.1 p.1 (List.mem_map_of_mem Prod.fst hpt)
      unfold cacheOf
      rw [List.filter_cons]
      simp only [hne, decide_False, Bool.false_eq_true, if_false]
      exact ih hparts.2 p hpt

/-- C4: on a sorted stream, every replay epoch consumes at each flush boundary
exactly the flush events cached during the first epoch: the same closing
timestamps, with identical batch membership and identical batch order.  (The
replay runner `runReplay` contains no scheduler invocation at all.) -/
theorem c4_replay_matches_first_epoch (us iseq : Nat → Nat) (ts : Nat → ℚ)
    (n tEnd : Nat) (hsorted : TimestampsSorted ts n) :
    runReplay (tbatchTimespan ts n) ts
        (cacheOf (runEpoch (tbatchTimespan ts n) us iseq ts initSched none 0 tEnd).1)
        none 0 tEnd
      = (runEpoch (tbatchTimespan ts n) us iseq ts initSched none 0 tEnd).1 := by
  have hspan := tbatchTimespan_nonneg ts n hsorted
  have hchain := runEpoch_flushTimes_chain_none (tbatchTimespan ts n) us iseq ts
    hspan tEnd initSched
  have hpairlt := (List.chain'_iff_pairwise.mp hchain)
  have hpair : (((runEpoch (tbatchTimespan ts n) us iseq ts initSched none 0
      tEnd).1).map Prod.fst).Pairwise (· ≠ ·) :=
    hpairlt.imp ne_of_lt
  rw [runReplay_eq_map (tbatchTimespan ts n) us iseq ts _ tEnd 0 initSched none]
  have hmem : ∀ p ∈ (runEpoch (tbatchTimespan ts n) us iseq ts initSched none 0
      tEnd).1,
      (p.1, cacheOf (runEpoch (tbatchTimespan ts n) us iseq ts initSched none 0
        tEnd).1 p.1) = p := by
    intro p hp
    have := cacheOf_mem hpair p hp
    rw [this]
  calc ((runEpoch (tbatchTimespan ts n) us iseq ts initSched none 0 tEnd).1).map
        (fun p => (p.1, cacheOf (runEpoch (tbatchTimespan ts n) us iseq ts
          initSched none 0 tEnd).1 p.1))
      = ((runEpoch (tbatchTimespan ts n) us iseq ts initSched none 0 tEnd).1).map
        id := List.map_congr_left hmem
    _ = _ := List.map_id _

/-- C4 witness: on the sorted 6-interaction stream `exTsD` the replay of the
cached first-epoch flushes reproduces the first-epoch flush trace exactly. -/
theorem c4_witness :
    TimestampsSorted exTsD 6 ∧
    runReplay (tbatchTimespan exTsD 6) exTsD
        (cacheOf (runEpoch (tbatchTimespan exTsD 6) exUsD exIsD exTsD initSched
          none 0 6).1) none 0 6
      = (runEpoch (tbatchTimespan exTsD 6) exUsD exIsD exTsD initSched
          none 0 6).1 :=
  ⟨by decide, c4_replay_matches_first_epoch exUsD exIsD exTsD 6 6 (by decide)⟩

/-- Updating one entry of a pointwise-read list of lists by appending an
element permutes the flattened contents by appending that element, provided
the key occurs exactly once. -/
theorem flatten_map_update {l : List Int} (hnd : l.Nodup)
    {f g : Int → List Nat} {t : Int} {j : Nat} (ht : t ∈ l)
    (hg : ∀ x, x ≠ t → g x = f x) (hgt : g t = f t ++ [j]) :
    ((l.map g).flatten).Perm ((l.map f).flatten ++ [j]) := by
  induction l with
  | nil => simp at ht
  | cons a l ih =>
    rcases List.mem_cons.mp ht with rfl | htl
    · have hnotin : t ∉ l := (List.nodup_cons.mp hnd).1
      have hmap : l.map g = l.map f :=
        List.map_congr_left fun x hx => hg x fun he => hnotin (he ▸ hx)
      simp only [List.map_cons, List.flatten_cons, hgt, hmap]
      rw [List.append_assoc, List.append_assoc]
      exact List.Perm.append_left _ List.perm_append_comm
    · have hat : a ≠ t := by
        intro he
        exact (List.nodup_cons.mp hnd).1 (he ▸ htl)
      have hga : g a = f a := hg a hat
      simp only [List.map_cons, List.flatten_cons, hga]
      rw [List.append_assoc]
      exact List.Perm.append_left _ (ih (List.nodup_cons.mp hnd).2 htl)

theorem range_map_intCast_nodup (n : Nat) :
    ((List.range n).map fun k : Nat => (k : Int)).Nodup := by
  refine List.Nodup.map ?_ (List.nodup_range n)
  intro a b hab
  simp only at hab
  omega

/-- Inserting interaction `j` adds exactly `j` to the scheduler's held
indices (the new id's batch gains `j`; all other batches are untouched, and
if the id is fresh it is the next contiguous one, extending the flush loop's
range by one). -/
theorem schedIndices_insert {us iseq : Nat → Nat} {s : SchedState} (j : Nat)
    (h : SchedInv us iseq s) :
    (schedIndices (insertInteraction us iseq s j)).Perm (schedIndices s ++ [j]) := by
  have hbb : ∀ k, (insertInteraction us iseq s j).current_tbatches_interactionids k =
      if k = tbatch_to_insert s (us j) (iseq j) then
        s.current_tbatches_interactionids k ++ [j]
      else s.current_tbatches_interactionids k :=
    fun _ => rfl
  have hbk : (insertInteraction us iseq s j).tbatch_keys =
      if tbatch_to_insert s (us j) (iseq j) ∈ s.tbatch_keys then s.tbatch_keys
      else s.tbatch_keys ++ [tbatch_to_insert s (us j) (iseq j)] := rfl
  have hflush : ∀ (s' : SchedState),
      schedIndices s' = (((List.range s'.tbatch_keys.length).map
        fun k : Nat => (k : Int)).map s'.current_tbatches_interactionids).flatten := by
    intro s'
    unfold schedIndices flushBatches
    rw [List.map_map]
    rfl
  by_cases hc : tbatch_to_insert s (us j) (iseq j) ∈ s.tbatch_keys
  · -- existing id: the key list is unchanged, one batch gains `j`
    have hlen : (insertInteraction us iseq s j).tbatch_keys.length =
        s.tbatch_keys.length := by rw [hbk, if_pos hc]
    rw [hflush, hflush, hlen]
    have hrange := (h.keys_range _).mp hc
    have htmem : tbatch_to_insert s (us j) (iseq j) ∈
        (List.range s.tbatch_keys.length).map fun k : Nat => (k : Int) := by
      simp only [List.mem_map, List.mem_range]
      refine ⟨(tbatch_to_insert s (us j) (iseq j)).toNat, ?_, ?_⟩
      · omega
      · omega
    refine flatten_map_update (range_map_intCast_nodup _) htmem ?_ ?_
    · intro x hx
      rw [hbb x, if_neg hx]
    · rw [hbb _, if_pos rfl]
  · -- fresh id: it is the next contiguous id; the loop range grows by one
    have hteq := tbatch_to_insert_eq_length h (us j) (iseq j) hc
    have hlen : (insertInteraction us iseq s j).tbatch_keys.length =
        s.tbatch_keys.length + 1 := by
      rw [hbk, if_neg hc, List.length_append, List.length_singleton]
    have hstep : schedIndices (insertInteraction us iseq s j)
        = schedIndices s ++ [j] := by
      rw [hflush, hflush, hlen, List.range_succ, List.map_append, List.map_append,
        List.flatten_append]
      have hsame : ((List.range s.tbatch_keys.length).map fun k : Nat => (k : Int)).map
            (insertInteraction us iseq s j).current_tbatches_interactionids
          = ((List.range s.tbatch_keys.length).map fun k : Nat => (k : Int)).map
            s.current_tbatches_interactionids := by
        refine List.map_congr_left ?_
        intro x hx
        simp only [List.mem_map, List.mem_range] at hx
        obtain ⟨k, hk, rfl⟩ := hx
        rw [hbb _, if_neg]
        omega
      rw [hsame]
      have hlast : ([s.tbatch_keys.length].map fun k : Nat => (k : Int)).map
            (insertInteraction us iseq s j).current_tbatches_interactionids
          = [[j]] := by
        simp only [List.map_cons, List.map_nil]
        rw [hbb _, if_pos (by omega)]
        have hempty : s.current_tbatches_interactionids
            ((s.tbatch_keys.length : Nat) : Int) = [] := by
          apply h.nonkey_empty
          rw [← hteq]
          exact hc
        rw [hempty]
        rfl
      rw [hlast]
      simp
    rw [hstep]

theorem schedInv_schedApply (us iseq : Nat → Nat) :
    ∀ (L : List Nat) (s : SchedState), SchedInv us iseq s →
      SchedInv us iseq (schedApply us iseq s L) := by
  intro L
  induction L with
  | nil => intro s h; exact h
  | cons j rest ih =>
    intro s h
    exact ih (insertInteraction us iseq s j) (schedInv_insert us iseq s j h)

/-- Accumulating the consecutive interactions `a, ..., a+len-1` into a
scheduler holds exactly those indices in its batches, besides what it already
held. -/
theorem schedIndices_applyRange (us iseq : Nat → Nat) :
    ∀ (len a : Nat) (s : SchedState), SchedInv us iseq s →
      (schedIndices (schedApplyRange us iseq s a len)).Perm
        (schedIndices s ++ List.range' a len) := by
  intro len
  induction len with
  | zero =>
    intro a s _
    simp [schedApplyRange, schedApply]
  | succ len ih =>
    intro a s h
    have hrange : List.range' a (len + 1) = a :: List.range' (a + 1) len :=
      List.range'_succ a len 1
    have happly : schedApplyRange us iseq s a (len + 1)
        = schedApplyRange us iseq (insertInteraction us iseq s a) (a + 1) len := by
      unfold schedApplyRange schedApply
      rw [hrange, List.foldl_cons]
    rw [happly]
    have hih := ih (a + 1) (insertInteraction us iseq s a)
      (schedInv_insert us iseq s a h)
    have hins := schedIndices_insert a h
    have heq : (schedIndices s ++ [a]) ++ List.range' (a + 1) len
        = schedIndices s ++ List.range' a (len + 1) := by
      rw [hrange, List.append_assoc]
      rfl
    rw [← heq]
    exact hih.trans (hins.append_right _)

theorem schedApplyRange_one (us iseq : Nat → Nat) (sched : SchedState) (j : Nat) :
    schedApplyRange us iseq sched j 1 = insertInteraction us iseq sched j := rfl

/-- Trigger indices are at least the loop's starting index. -/
theorem windowTriggers_ge (span : ℚ) (ts : Nat → ℚ) :
    ∀ (r j : Nat) (start : Option ℚ),
      ∀ g ∈ windowTriggers span ts start j r, j ≤ g := by
  intro r
  induction r with
  | zero =>
    intro j start g hg
    simp [windowTriggers] at hg
  | succ r ih =>
    intro j start g hg
    rw [windowTriggers] at hg
    split at hg
    · rcases List.mem_cons.mp hg with rfl | hgt
      · exact Nat.le_refl g
      · have := ih (j + 1) (some (ts j)) g hgt
        omega
    · have := ih (j + 1) (some (start.getD (ts j))) g hg
      omega

/-- Trigger indices stay below the end of the processed range. -/
theorem windowTriggers_lt (span : ℚ) (ts : Nat → ℚ) :
    ∀ (r j : Nat) (start : Option ℚ),
      ∀ g ∈ windowTriggers span ts start j r, g < j + r := by
  intro r
  induction r with
  | zero =>
    intro j start g hg
    simp [windowTriggers] at hg
  | succ r ih =>
    intro j start g hg
    rw [windowTriggers] at hg
    split at hg
    · rcases List.mem_cons.mp hg with rfl | hgt
      · omega
      · have := ih (j + 1) (some (ts j)) g hgt
        omega
    · have := ih (j + 1) (some (start.getD (ts j))) g hg
      omega

theorem flushesOfTriggers_shift (us iseq : Nat → Nat) (ts : Nat → ℚ)
    (T : List Nat) (j : Nat) (sched : SchedState)
    (hT : ∀ g ∈ T, j + 1 ≤ g) :
    flushesOfTriggers us iseq ts sched j T
      = flushesOfTriggers us iseq ts (insertInteraction us iseq sched j)
          (j + 1) T := by
  cases T with
  | nil => rfl
  | cons g rest =>
    have hg : j + 1 ≤ g := hT g (List.mem_cons_self g rest)
    have harg : schedApplyRange us iseq sched j (g + 1 - j)
        = schedApplyRange us iseq (insertInteraction us iseq sched j) (j + 1)
            (g + 1 - (j + 1)) := by
      have hsucc : g + 1 - j = (g + 1 - (j + 1)) + 1 := by omega
      rw [hsucc]
      unfold schedApplyRange schedApply
      rw [List.range'_succ, List.foldl_cons]
    rw [flushesOfTriggers, flushesOfTriggers, harg]

theorem finalSchedOf_shift (us iseq : Nat → Nat) (T : List Nat) (j e : Nat)
    (sched : SchedState) (hT : ∀ g ∈ T, j + 1 ≤ g) (hje : j < e) :
    finalSchedOf us iseq e sched j T
      = finalSchedOf us iseq e (insertInteraction us iseq sched j) (j + 1) T := by
  cases T with
  | nil =>
    show schedApplyRange us iseq sched j (e - j)
      = schedApplyRange us iseq (insertInteraction us iseq sched j) (j + 1)
          (e - (j + 1))
    have hsucc : e - j = (e - (j + 1)) + 1 := by omega
    rw [hsucc]
    unfold schedApplyRange schedApply
    rw [List.range'_succ, List.foldl_cons]
  | cons g rest => rfl

/-- Master decomposition, flush part: the first-epoch flush events are exactly
the per-window reconstructions at the trigger indices — the window closing at
trigger `g` was accumulated from the consecutive interactions `a, ..., g`
(where `a` is the previous trigger plus one, or the loop start), starting
from a reinitialised scheduler. -/
theorem runEpoch_fst_eq (span : ℚ) (us iseq : Nat → Nat) (ts : Nat → ℚ) :
    ∀ (r j : Nat) (sched : SchedState) (start : Option ℚ),
      (runEpoch span us iseq ts sched start j r).1
        = flushesOfTriggers us iseq ts sched j
            (windowTriggers span ts start j r) := by
  intro r
  induction r with
  | zero =>
    intro j sched start
    simp [runEpoch, windowTriggers, flushesOfTriggers]
  | succ r ih =>
    intro j sched start
    rw [runEpoch, windowTriggers]
    by_cases hc : ts j - start.getD (ts j) > span
    · simp only [hc, if_true]
      rw [flushesOfTriggers]
      have hone : j + 1 - j = 1 := by omega
      rw [hone, schedApplyRange_one]
      exact congrArg _ (ih (j + 1) initSched (some (ts j)))
    · simp only [hc, if_false]
      rw [ih (j + 1) (insertInteraction us iseq sched j)
        (some (start.getD (ts j)))]
      exact (flushesOfTriggers_shift us iseq ts _ j sched
        (windowTriggers_ge span ts r (j + 1) _)).symm

/-- Master decomposition, leftover part: the scheduler state left over when
the loop ends is the accumulation of the trailing interactions after the last
trigger (or of the whole range if no flush ever fired). -/
theorem runEpoch_snd_eq (span : ℚ) (us iseq : Nat → Nat) (ts : Nat → ℚ) :
    ∀ (r j : Nat) (sched : SchedState) (start : Option ℚ),
      (runEpoch span us iseq ts sched start j r).2
        = finalSchedOf us iseq (j + r) sched j
            (windowTriggers span ts start j r) := by
  intro r
  induction r with
  | zero =>
    intro j sched start
    show sched = schedApplyRange us iseq sched j (j + 0 - j)
    have h0 : j + 0 - j = 0 := by omega
    rw [h0]
    rfl
  | succ r ih =>
    intro j sched start
    rw [runEpoch, windowTriggers]
    by_cases hc : ts j - start.getD (ts j) > span
    · simp only [hc, if_true]
      rw [finalSchedOf]
      have harith : j + (r + 1) = (j + 1) + r := by omega
      rw [harith]
      exact ih (j + 1) initSched (some (ts j))
    · simp only [hc, if_false]
      rw [ih (j + 1) (insertInteraction us iseq sched j)
        (some (start.getD (ts j)))]
      have harith : j + (r + 1) = (j + 1) + r := by omega
      rw [harith]
      exact (finalSchedOf_shift us iseq _ j ((j + 1) + r) sched
        (windowTriggers_ge span ts r (j + 1) _) (by omega)).symm

/-- Separation of a trigger list: each trigger is at least the running window
start, and the next window starts right after it. -/
def TrigSeparated : Nat → List Nat → Prop
  | _, [] => True
  | a, g :: rest => a ≤ g ∧ TrigSeparated (g + 1) rest

theorem trigSeparated_mono : ∀ (T : List Nat) (a a' : Nat), a' ≤ a →
    TrigSeparated a T → TrigSeparated a' T := by
  intro T a a' hle h
  cases T with
  | nil => trivial
  | cons g rest => exact ⟨Nat.le_trans hle h.1, h.2⟩

theorem windowTriggers_separated (span : ℚ) (ts : Nat → ℚ) :
    ∀ (r j : Nat) (start : Option ℚ),
      TrigSeparated j (windowTriggers span ts start j r) := by
  intro r
  induction r with
  | zero =>
    intro j start
    rw [windowTriggers]
    trivial
  | succ r ih =>
    intro j start
    rw [windowTriggers]
    split
    · exact ⟨Nat.le_refl j, ih (j + 1) (some (ts j))⟩
    · exact trigSeparated_mono _ (j + 1) j (Nat.le_succ j)
        (ih (j + 1) (some (start.getD (ts j))))

theorem lastEnd_ge : ∀ (T : List Nat) (a : Nat), TrigSeparated a T →
    a ≤ lastEnd a T := by
  intro T
  induction T with
  | nil => intro a _; exact Nat.le_refl a
  | cons g rest ih =>
    intro a h
    have h1 : a ≤ g := h.1
    have := ih (g + 1) h.2
    show a ≤ lastEnd (g + 1) rest
    omega

theorem lastEnd_le : ∀ (T : List Nat) (a e : Nat), a ≤ e →
    (∀ g ∈ T, g < e) → lastEnd a T ≤ e := by
  intro T
  induction T with
  | nil => intro a e h _; exact h
  | cons g rest ih =>
    intro a e _ hb
    have hg : g < e := hb g (List.mem_cons_self g rest)
    exact ih (g + 1) e (by omega) fun x hx => hb x (List.mem_cons_of_mem g hx)

/-- All interaction indices flushed over a separated trigger list starting
from a reinitialised scheduler form exactly the consecutive range from the
start up to the last trigger. -/
theorem flushIndices_ofTriggers (us iseq : Nat → Nat) (ts : Nat → ℚ) :
    ∀ (T : List Nat) (a : Nat), TrigSeparated a T →
      (flushIndices (flushesOfTriggers us iseq ts initSched a T)).Perm
        (List.range' a (lastEnd a T - a)) := by
  intro T
  induction T with
  | nil =>
    intro a _
    show (flushIndices []).Perm (List.range' a (a - a))
    rw [Nat.sub_self]
    exact List.Perm.refl _
  | cons g rest ih =>
    intro a hsep
    obtain ⟨ha, hrest⟩ := hsep
    have hcons : flushIndices (flushesOfTriggers us iseq ts initSched a (g :: rest))
        = schedIndices (schedApplyRange us iseq initSched a (g + 1 - a))
          ++ flushIndices (flushesOfTriggers us iseq ts initSched (g + 1) rest) := by
      rw [flushesOfTriggers]
      unfold flushIndices schedIndices
      rw [List.map_cons, List.flatten_cons]
    rw [hcons]
    have h1 := schedIndices_applyRange us iseq (g + 1 - a) a initSched
      (schedInv_init us iseq)
    rw [show schedIndices initSched = [] from rfl, List.nil_append] at h1
    have h2 := ih (g + 1) hrest
    have hle : g + 1 ≤ lastEnd (g + 1) rest := lastEnd_ge rest (g + 1) hrest
    have hstep : lastEnd a (g :: rest) = lastEnd (g + 1) rest := rfl
    rw [hstep]
    have hrange : List.range' a (g + 1 - a)
          ++ List.range' (g + 1) (lastEnd (g + 1) rest - (g + 1))
        = List.range' a (lastEnd (g + 1) rest - a) := by
      have happ := List.range'_append_1 a (g + 1 - a)
        (lastEnd (g + 1) rest - (g + 1))
      rw [show a + (g + 1 - a) = g + 1 by omega] at happ
      rw [happ]
      congr 1
      omega
    rw [← hrange]
    exact h1.append h2

/-- The leftover scheduler state after a separated, bounded trigger list holds
exactly the trailing indices from just after the last trigger to the end. -/
theorem finalIndices_ofTriggers (us iseq : Nat → Nat) :
    ∀ (T : List Nat) (a e : Nat), TrigSeparated a T → (∀ g ∈ T, g < e) →
      a ≤ e →
      (schedIndices (finalSchedOf us iseq e initSched a T)).Perm
        (List.range' (lastEnd a T) (e - lastEnd a T)) := by
  intro T
  induction T with
  | nil =>
    intro a e _ _ _
    have h1 := schedIndices_applyRange us iseq (e - a) a initSched
      (schedInv_init us iseq)
    rw [show schedIndices initSched = [] from rfl, List.nil_append] at h1
    exact h1
  | cons g rest ih =>
    intro a e hsep hb hae
    have hg : g < e := hb g (List.mem_cons_self g rest)
    show (schedIndices (finalSchedOf us iseq e initSched (g + 1) rest)).Perm
      (List.range' (lastEnd (g + 1) rest) (e - lastEnd (g + 1) rest))
    exact ih (g + 1) e hsep.2 (fun x hx => hb x (List.mem_cons_of_mem g hx))
      (by omega)

/-- Partition of a first epoch: the flushed windows cover exactly the
interaction indices `0, ..., k-1` (each exactly once), where `k` is one more
than the last flush trigger, and the leftover (never flushed) scheduler state
holds exactly the trailing indices `k, ..., tEnd-1`. -/
theorem epoch_flush_partition (span : ℚ) (us iseq : Nat → Nat) (ts : Nat → ℚ)
    (tEnd : Nat) :
    ∃ k, k ≤ tEnd ∧
      (flushIndices (runEpoch span us iseq ts initSched none 0 tEnd).1).Perm
        (List.range k) ∧
      (schedIndices (runEpoch span us iseq ts initSched none 0 tEnd).2).Perm
        (List.range' k (tEnd - k)) := by
  have hsep : TrigSeparated 0 (windowTriggers span ts none 0 tEnd) :=
    windowTriggers_separated span ts tEnd 0 none
  have hlt : ∀ g ∈ windowTriggers span ts none 0 tEnd, g < tEnd := by
    intro g hg
    have := windowTriggers_lt span ts tEnd 0 none g hg
    omega
  refine ⟨lastEnd 0 (windowTriggers span ts none 0 tEnd), ?_, ?_, ?_⟩
  · exact lastEnd_le _ 0 tEnd (Nat.zero_le _) hlt
  · rw [runEpoch_fst_eq]
    have h1 := flushIndices_ofTriggers us iseq ts
      (windowTriggers span ts none 0 tEnd) 0 hsep
    rw [Nat.sub_zero] at h1
    rw [List.range_eq_range']
    exact h1
  · rw [runEpoch_snd_eq]
    have h2 := finalIndices_ofTriggers us iseq
      (windowTriggers span ts none 0 tEnd) 0 tEnd hsep hlt (Nat.zero_le _)
    rw [Nat.zero_add]
    exact h2

/-- C1 (amended): in every epoch the flushed windows partition exactly an
initial prefix of the training interactions — there is a `k ≤ tEnd` (one more
than the last span-exceeding trigger) such that the flushed windows together
contain each index `< k` exactly once — while the trailing partial window is
NOT flushed when the stream is exhausted: the indices `k, ..., tEnd-1` remain
in the scheduler's accumulating lists and are never processed (the loop at
jodie.py lines 155-281 has no final flush). -/
theorem c1_flush_windows_partition_flushed_prefix (span : ℚ)
    (us iseq : Nat → Nat) (ts : Nat → ℚ) (tEnd : Nat) :
    ∃ k, k ≤ tEnd ∧
      (flushIndices (runEpoch span us iseq ts initSched none 0 tEnd).1).Perm
        (List.range k) ∧
      (schedIndices (runEpoch span us iseq ts initSched none 0 tEnd).2).Perm
        (List.range' k (tEnd - k)) :=
  epoch_flush_partition span us iseq ts tEnd

/-- C1 counterexample: on the stream with timestamps `0, 10, 11, 11, 500`
(span 1, training boundary 4) only interactions 0 and 1 are ever flushed;
interaction 2 lies below the training boundary yet belongs to no flushed
window — it stays in the leftover scheduler state when the training prefix is
exhausted, refuting the claim that the flush windows partition the whole
training prefix. -/
theorem c1_counterexample :
    (2 : Nat) ∉ flushIndices
        (runEpoch (tbatchTimespan exTsA 5) exUsA exIsA exTsA initSched
          none 0 4).1 ∧
    2 < 4 ∧
    (2 : Nat) ∈ schedIndices
        (runEpoch (tbatchTimespan exTsA 5) exUsA exIsA exTsA initSched
          none 0 4).2 :=
  ⟨by decide, by decide, by decide⟩

/-- Interaction indices written into `user_embeddings_timeseries` during one
first epoch (jodie.py line 246): each processed batch writes the rows at its
`tbatch_interactionids`, and only flushed batches are processed. -/
def user_embeddings_timeseries_writes (span : ℚ) (us iseq : Nat → Nat)
    (ts : Nat → ℚ) (tEnd : Nat) : List Nat :=
  flushIndices (runEpoch span us iseq ts initSched none 0 tEnd).1

/-- Interaction indices written into `item_embeddings_timeseries` during one
first epoch (jodie.py line 247); the write index set is the same
`tbatch_interactionids` as for the user timeline. -/
def item_embeddings_timeseries_writes (span : ℚ) (us iseq : Nat → Nat)
    (ts : Nat → ℚ) (tEnd : Nat) : List Nat :=
  flushIndices (runEpoch span us iseq ts initSched none 0 tEnd).1

/-- C6 (amended): after one full epoch, the interaction indices with a written
trajectory entry — in both the actor and the target timeline — are exactly
those up to the last flush trigger (`k ≤ tEnd`), each written exactly once;
indices of the trailing never-flushed window are not written that epoch. -/
theorem c6_trajectory_written_for_flushed_prefix (span : ℚ)
    (us iseq : Nat → Nat) (ts : Nat → ℚ) (tEnd : Nat) :
    ∃ k, k ≤ tEnd ∧
      (user_embeddings_timeseries_writes span us iseq ts tEnd).Perm
        (List.range k) ∧
      (item_embeddings_timeseries_writes span us iseq ts tEnd).Perm
        (List.range k) := by
  obtain ⟨k, hk, hflush, _⟩ := epoch_flush_partition span us iseq ts tEnd
  exact ⟨k, hk, hflush, hflush⟩

/-- C6 counterexample: on the stream with timestamps `0, 10, 11, 11, 500`
(training boundary 4), interaction 2 gets no trajectory entry in either
timeline during the epoch, because its window is never flushed. -/
theorem c6_counterexample :
    (2 : Nat) ∉ user_embeddings_timeseries_writes (tbatchTimespan exTsA 5)
        exUsA exIsA exTsA 4 ∧
    (2 : Nat) ∉ item_embeddings_timeseries_writes (tbatchTimespan exTsA 5)
        exUsA exIsA exTsA 4 ∧
    2 < 4 :=
  ⟨by decide, by decide, by decide⟩

/-- Per-window span bound along a trigger list: each window's interactions,
except the trigger itself, lie within the span of the window's first
interaction. -/
def WindowsSpanOK (ts : Nat → ℚ) (span : ℚ) : Nat → List Nat → Prop
  | _, [] => True
  | a, g :: rest => a ≤ g ∧ (∀ i, a ≤ i → i < g → ts i - ts a ≤ span) ∧
      WindowsSpanOK ts span (g + 1) rest

/-- On a sorted stream the triggers produced by the span check satisfy the
per-window span bound: an interaction that did not fire the check is within
the span of the window's reference start time, which is at most the window's
first timestamp. -/
theorem windowTriggers_spanOK (span : ℚ) (ts : Nat → ℚ) (n : Nat)
    (hsorted : TimestampsSorted ts n) :
    ∀ (r j a : Nat) (s₀ : ℚ), a ≤ j → j + r ≤ n → s₀ ≤ ts a →
      (∀ i, a ≤ i → i < j → ts i - s₀ ≤ span) →
      WindowsSpanOK ts span a (windowTriggers span ts (some s₀) j r) := by
  intro r
  induction r with
  | zero =>
    intro j a s₀ _ _ _ _
    rw [windowTriggers]
    trivial
  | succ r ih =>
    intro j a s₀ haj hjr hs0 hacc
    rw [windowTriggers]
    simp only [Option.getD_some]
    by_cases hc : ts j - s₀ > span
    · simp only [hc, if_true]
      refine ⟨haj, ?_, ?_⟩
      · intro i hai hij
        have h1 := hacc i hai hij
        linarith
      · cases r with
        | zero =>
          rw [windowTriggers]
          trivial
        | succ r' =>
          have hjn : j + 1 < n := by omega
          have hts : ts j ≤ ts (j + 1) := hsorted (j + 1) hjn j (Nat.le_succ j)
          exact ih (j + 1) (j + 1) (ts j) (Nat.le_refl _) (by omega) hts
            fun i h1 h2 => absurd h2 (by omega)
    · simp only [hc, if_false]
      refine ih (j + 1) a s₀ (by omega) (by omega) hs0 ?_
      intro i hai hij
      rcases Nat.lt_or_ge i j with hij' | hij'
      · exact hacc i hai hij'
      · have hieq : i = j := by omega
        subst hieq
        linarith

/-- Every flush event along a span-bounded trigger list covers a contiguous
index interval `a', ..., g`, all of whose members except the trigger `g` are
within the span of the window's first interaction `a'`. -/
theorem flushesOfTriggers_within_span (us iseq : Nat → Nat) (ts : Nat → ℚ)
    (span : ℚ) :
    ∀ (T : List Nat) (a : Nat), WindowsSpanOK ts span a T →
      ∀ p ∈ flushesOfTriggers us iseq ts initSched a T,
        ∃ a' g, a' ≤ g ∧
          (p.2.flatten).Perm (List.range' a' (g + 1 - a')) ∧
          ∀ i, a' ≤ i → i < g → ts i - ts a' ≤ span := by
  intro T
  induction T with
  | nil =>
    intro a _ p hp
    simp [flushesOfTriggers] at hp
  | cons g rest ih =>
    intro a hok p hp
    obtain ⟨hag, hin, hrest⟩ := hok
    rw [flushesOfTriggers] at hp
    rcases List.mem_cons.mp hp with rfl | hpt
    · refine ⟨a, g, hag, ?_, hin⟩
      have h1 := schedIndices_applyRange us iseq (g + 1 - a) a initSched
        (schedInv_init us iseq)
      rw [show schedIndices initSched = [] from rfl, List.nil_append] at h1
      exact h1
    · exact ih (g + 1) hrest p hpt

/-- C5 (amended): on a sorted stream, every flushed window consists of the
consecutive interactions `a, ..., g`, and every member except the final one
(the span-exceeding trigger `g`, inserted before the span check) lies within
the configured span of the window's first interaction; the elapsed time from
first to last member may exceed the span, because the trigger itself is
included in the flushed window. -/
theorem c5_window_members_within_span_except_trigger (us iseq : Nat → Nat)
    (ts : Nat → ℚ) (n tEnd : Nat) (hsorted : TimestampsSorted ts n)
    (htEnd : tEnd ≤ n) (p : ℚ × List (List Nat))
    (hp : p ∈ (runEpoch (tbatchTimespan ts n) us iseq ts initSched
      none 0 tEnd).1) :
    ∃ a g, a ≤ g ∧ (p.2.flatten).Perm (List.range' a (g + 1 - a)) ∧
      ∀ i, a ≤ i → i < g → ts i - ts a ≤ tbatchTimespan ts n := by
  rw [runEpoch_fst_eq] at hp
  cases tEnd with
  | zero =>
    rw [windowTriggers] at hp
    simp [flushesOfTriggers] at hp
  | succ m =>
    have hspan := tbatchTimespan_nonneg ts n hsorted
    rw [windowTriggers] at hp
    simp only [Option.getD_none] at hp
    have hc : ¬ (ts 0 - ts 0 > tbatchTimespan ts n) := by linarith
    simp only [hc, if_false] at hp
    have hok := windowTriggers_spanOK (tbatchTimespan ts n) ts n hsorted m 1 0
      (ts 0) (Nat.zero_le _) (by omega) (le_refl _) ?_
    · exact flushesOfTriggers_within_span us iseq ts (tbatchTimespan ts n) _ 0
        hok p hp
    · intro i h0 h1
      have hieq : i = 0 := by omega
      subst hieq
      linarith

/-- C5 counterexample: on the stream with timestamps `0, 10, 11, 30, 500`
(span 1) there are two flushed windows, covering interactions `{0, 1}` and
`{2, 3}`; the first — not the final trailing window — spans
`ts 1 - ts 0 = 10`, ten times the configured span, because the triggering
interaction is inserted into the window before the span check. -/
theorem c5_counterexample :
    ((runEpoch (tbatchTimespan exTsC 5) exUsA exIsA exTsC initSched
        none 0 4).1).map (fun p => p.2.flatten) = [[0, 1], [2, 3]] ∧
    exTsC 1 - exTsC 0 > tbatchTimespan exTsC 5 :=
  ⟨by decide, by decide⟩

/-- C5 witness: the first flushed window of the counterexample stream, with
its contiguous interval `{0, 1}` and the span bound on all non-trigger
members. -/
theorem c5_witness :
    TimestampsSorted exTsC 5 ∧
    ((10 : ℚ), [[0, 1]]) ∈ (runEpoch (tbatchTimespan exTsC 5) exUsA exIsA
        exTsC initSched none 0 4).1 ∧
    (∃ a g, a ≤ g ∧
      ((([[0, 1]] : List (List Nat))).flatten).Perm
        (List.range' a (g + 1 - a)) ∧
      ∀ i, a ≤ i → i < g → exTsC i - exTsC a ≤ tbatchTimespan exTsC 5) :=
  ⟨by decide, by decide,
   c5_window_members_within_span_except_trigger exUsA exIsA exTsC 5 4
     (by decide) (by decide) ((10 : ℚ), [[0, 1]]) (by decide)⟩

/-- Every flush event of a first-epoch run arises as `flushBatches` of some
scheduler state accumulated from a consecutive index range starting at a
reinitialised scheduler. -/
theorem flushesOfTriggers_mem_shape (us iseq : Nat → Nat) (ts : Nat → ℚ) :
    ∀ (T : List Nat) (a : Nat),
      ∀ p ∈ flushesOfTriggers us iseq ts initSched a T,
        ∃ a' len, p.2 = flushBatches (schedApplyRange us iseq initSched a' len) := by
  intro T
  induction T with
  | nil =>
    intro a p hp
    simp [flushesOfTriggers] at hp
  | cons g rest ih =>
    intro a p hp
    rw [flushesOfTriggers] at hp
    rcases List.mem_cons.mp hp with rfl | hpt
    · exact ⟨a, g + 1 - a, rfl⟩
    · exact ih (g + 1) p hpt

/-- C8: during the flush of each window, the batch ids visited by the flush
loop (`0, 1, ..., len-1`, in that order) are pairwise strictly increasing and
are exactly the ids of the non-empty (assigned) batches — so the accumulated
batch ids form a contiguous range from the first assigned id `0` up to the
maximum id seen in the window, and each accumulated batch is handed to the
training cycle exactly once, in strictly increasing batch-id order; in
particular every processed batch is non-empty. -/
theorem c8_flush_processes_contiguous_batches (span : ℚ) (us iseq : Nat → Nat)
    (ts : Nat → ℚ) (tEnd : Nat) (p : ℚ × List (List Nat))
    (hp : p ∈ (runEpoch span us iseq ts initSched none 0 tEnd).1) :
    ∃ s : SchedState, p.2 = flushBatches s ∧
      List.Chain' (· < ·) (flushOrder s) ∧
      (∀ b : Int, b ∈ flushOrder s ↔
        s.current_tbatches_interactionids b ≠ []) ∧
      ∀ batch ∈ p.2, batch ≠ [] := by
  rw [runEpoch_fst_eq] at hp
  obtain ⟨a, len, hshape⟩ := flushesOfTriggers_mem_shape us iseq ts _ 0 p hp
  have hinv : SchedInv us iseq (schedApplyRange us iseq initSched a len) :=
    schedInv_schedApply us iseq (List.range' a len) initSched
      (schedInv_init us iseq)
  refine ⟨schedApplyRange us iseq initSched a len, hshape, ?_, ?_, ?_⟩
  · unfold flushOrder
    rw [List.chain'_iff_pairwise]
    refine List.Pairwise.map _ ?_ (List.pairwise_lt_range _)
    intro x y hxy
    exact_mod_cast hxy
  · intro b
    unfold flushOrder
    constructor
    · intro hb
      simp only [List.mem_map, List.mem_range] at hb
      obtain ⟨k, hk, rfl⟩ := hb
      apply hinv.key_nonempty
      rw [hinv.keys_range]
      constructor
      · exact Int.ofNat_nonneg k
      · exact_mod_cast hk
    · intro hb
      have hkey : b ∈ (schedApplyRange us iseq initSched a len).tbatch_keys := by
        by_contra hbk
        exact hb (hinv.nonkey_empty b hbk)
      have hbr := (hinv.keys_range b).mp hkey
      simp only [List.mem_map, List.mem_range]
      refine ⟨b.toNat, ?_, ?_⟩
      · omega
      · omega
  · intro batch hbatch
    rw [hshape] at hbatch
    unfold flushBatches at hbatch
    simp only [List.mem_map, List.mem_range] at hbatch
    obtain ⟨k, hk, rfl⟩ := hbatch
    apply hinv.key_nonempty
    rw [hinv.keys_range]
    constructor
    · exact Int.ofNat_nonneg k
    · exact_mod_cast hk

/-- C8 witness: the flushed window of the spec §8 scenario stream; its batch
list `[[0,1,5],[2,3],[4]]` is processed as batches `0 < 1 < 2`, exactly the
non-empty batches, each once. -/
theorem c8_witness :
    ((100 : ℚ), [[0, 1, 5], [2, 3], [4]]) ∈
        (runEpoch (tbatchTimespan exTsD 6) exUsD exIsD exTsD initSched
          none 0 6).1 ∧
    (∃ s : SchedState,
      ((100 : ℚ), ([[0, 1, 5], [2, 3], [4]] : List (List Nat))).2
          = flushBatches s ∧
        List.Chain' (· < ·) (flushOrder s) ∧
        (∀ b : Int, b ∈ flushOrder s ↔
          s.current_tbatches_interactionids b ≠ []) ∧
        ∀ batch ∈ ((100 : ℚ), ([[0, 1, 5], [2, 3], [4]] : List (List Nat))).2,
          batch ≠ []) :=
  ⟨by decide,
   c8_flush_processes_contiguous_batches (tbatchTimespan exTsD 6) exUsD exIsD
     exTsD 6 ((100 : ℚ), [[0, 1, 5], [2, 3], [4]]) (by decide)⟩

end Jodie
